import Mathlib

/-!
Verification of the dependency-graph parser and differ of this repository
against its design specification.

The embedding mirrors the TypeScript sources:
  * `ComponentIdentifier` with its ordered coordinate map, `getName`,
    `getVersion`, `equals`, `createMavenIdentifier` and `toJson`
    (file `ComponentIdentifier.ts`);
  * the dependency-tree parser `parseDependencyTreeOutput` together with
    `createDependencyFromMavenCoordinates` (file `index.ts`, latest revision);
  * the forest differ `computeDiff` / `detectUpgrades` and the
    introduced/removed cross-filtering performed by `run`.

JavaScript objects are shared by reference and mutated in place during
normalization, so dependency nodes live in an explicit `Store` (an arena of
nodes addressed by index); a JS object reference is a `Nat` index into the
store.  A JS `undefined` is `Option.none`.
-/

/-- JS `Map` lookup over an insertion-ordered association list: `undefined`
both for a missing key and for a key stored with value `undefined`
(`jsGet m k` models `m.get(k)` flattening those two cases, exactly as the
`===`/`!==` comparisons in the source see them). -/
def jsGet (m : List (String × Option String)) (k : String) : Option String :=
  match m.find? (fun kv => kv.1 == k) with
  | some kv => kv.2
  | none => none

/-- JS `Map.has`: true even when the stored value is `undefined`. -/
def jsHas (m : List (String × Option String)) (k : String) : Bool :=
  m.any (fun kv => kv.1 == k)

def MAVEN : String := "maven"

/-- `ComponentIdentifier` from `ComponentIdentifier.ts`: a format tag plus an
insertion-ordered coordinate map.  Values are `Option String` because the
parser indexes into the split coordinate array, which yields `undefined` past
its end. -/
structure ComponentIdentifier where
  format : String
  coordinates : List (String × Option String)
deriving DecidableEq

namespace ComponentIdentifier

/-- `getName`: `this.coordinates.get('artifactId')!`; when the value is
`undefined` the surrounding template literals render it as `"undefined"`. -/
def getName (ci : ComponentIdentifier) : String :=
  match jsGet ci.coordinates "artifactId" with
  | some s => s
  | none => "undefined"

/-- `getVersion`: `const version = this.coordinates.get('version'); return
version ? version : 'n/a'` — the guard is JS truthiness, so both a missing
version and an empty-string version yield the `"n/a"` sentinel. -/
def getVersion (ci : ComponentIdentifier) : String :=
  match jsGet ci.coordinates "version" with
  | some s => if s == "" then "n/a" else s
  | none => "n/a"

/-- `equals`: formats must match, every key of `this` must map to the same
value in `b` (with `undefined === undefined` counting as equal), and every key
of `b` must be present in `this`. -/
def equals (a b : ComponentIdentifier) : Bool :=
  a.format == b.format
    && a.coordinates.all (fun kv => jsGet b.coordinates kv.1 == jsGet a.coordinates kv.1)
    && b.coordinates.all (fun kv => jsHas a.coordinates kv.1)

/-- `createMavenIdentifier`: inserts the five coordinate fields in the order
groupId, artifactId, version, classifier, extension. -/
def createMavenIdentifier (groupId artifactId extension classifier version : Option String) :
    ComponentIdentifier :=
  ⟨MAVEN,
    [("groupId", groupId), ("artifactId", artifactId), ("version", version),
     ("classifier", classifier), ("extension", extension)]⟩

/-- One `"key":"value"` fragment of the `toJson` replacer; the replacer builds
the fragment by string concatenation, so an `undefined` value is rendered as
the string `"undefined"`. -/
def entryStr (kv : String × Option String) : String :=
  "\"" ++ kv.1 ++ "\":\"" ++ (match kv.2 with | some v => v | none => "undefined") ++ "\""

/-- Comma-joined coordinate entries, as produced by the replacer's
`result += (result.length > 1 ? ',"' : '"') + ...` loop. -/
def joinEntries : List (String × Option String) → String
  | [] => ""
  | [kv] => entryStr kv
  | kv :: rest => entryStr kv ++ "," ++ joinEntries rest

/-- `toJson`: `JSON.stringify(this, replacer)` — the class fields `format` and
`coordinates` in declaration order, with the coordinate map flattened to a
plain object.  Coordinate values are modelled as free of JSON escape
characters (the edge regex guarantees they contain no double quote). -/
def toJson (ci : ComponentIdentifier) : String :=
  "\x7b\"format\":\"" ++ ci.format ++ "\",\"coordinates\":\x7b"
    ++ joinEntries ci.coordinates ++ "\x7d\x7d"

end ComponentIdentifier

/-- One `Dependency` node (interface `Dependency` in `index.ts`).  `children`
holds store indices because JS child arrays hold shared object references.
`isDirect : Option Bool` models the source's `boolean | undefined` tri-state
(`none` = module root, `some true` = direct, `some false` = transitive). -/
structure NodeData where
  identifier : ComponentIdentifier
  scope : Option String
  children : List Nat
  isModule : Bool
  isDirect : Option Bool
deriving DecidableEq

def defaultNode : NodeData := ⟨⟨"", []⟩, none, [], false, none⟩

/-- The arena of dependency-node objects; a JS object reference is an index. -/
structure Store where
  nodes : List NodeData
deriving DecidableEq

def getNode (σ : Store) (i : Nat) : NodeData := σ.nodes.getD i defaultNode

def updateNode (σ : Store) (i : Nat) (f : NodeData → NodeData) : Store :=
  ⟨σ.nodes.set i (f (getNode σ i))⟩

/-- `coord.split(':')` over the characters of a coordinate string. -/
def splitOnColonGo : List Char → List Char → List String
  | [], acc => [String.mk acc.reverse]
  | c :: rest, acc =>
    if c = ':' then String.mk acc.reverse :: splitOnColonGo rest []
    else splitOnColonGo rest (c :: acc)

def splitOnColon (cs : List Char) : List String := splitOnColonGo cs []

/-- `createDependencyFromMavenCoordinates`: the 4-part and 5-part shapes are
handled explicitly, everything else falls into the 6-part `else` branch, where
indexing past the end of the array yields `undefined` (`List.get?` = `none`).
A fresh node always has an empty child list, `isModule = false` and
`isDirect = false`. -/
def createDependencyFromMavenCoordinates (parts : List String) : NodeData :=
  if parts.length == 4 then
    ⟨ComponentIdentifier.createMavenIdentifier (parts.get? 0) (parts.get? 1) (parts.get? 2)
        (some "") (parts.get? 3),
      none, [], false, some false⟩
  else if parts.length == 5 then
    ⟨ComponentIdentifier.createMavenIdentifier (parts.get? 0) (parts.get? 1) (parts.get? 2)
        (some "") (parts.get? 3),
      parts.get? 4, [], false, some false⟩
  else
    ⟨ComponentIdentifier.createMavenIdentifier (parts.get? 0) (parts.get? 1) (parts.get? 2)
        (parts.get? 3) (parts.get? 4),
      parts.get? 5, [], false, some false⟩

/-! ## The forest differ (`computeDiff`, `detectUpgrades`, and the
introduced/removed cross-filtering from `run`) -/

def keyOf (d : NodeData) : String :=
  d.identifier.getName ++ "@" ++ d.identifier.getVersion

def nameOf (d : NodeData) : String := d.identifier.getName

def versionOf (d : NodeData) : String := d.identifier.getVersion

/-- `computeDiff(left, right)`: the elements of `left` whose `name@version`
key does not occur among the keys of `right`. -/
def computeDiff (left right : List NodeData) : List NodeData :=
  left.filter (fun d => !((right.map keyOf).contains (keyOf d)))

/-- An upgrade triple; the source's fields are `name`, `from`, `to` (`from`
is a Lean keyword, hence `fromDep` / `toDep`). -/
structure Upgrade where
  name : String
  fromDep : NodeData
  toDep : NodeData
deriving DecidableEq

/-- The `masterByName` lookup of `detectUpgrades`: a JS `Map` filled in list
order, so on duplicate names the last write wins — equivalently, search the
reversed list. -/
def masterByName (master : List NodeData) (n : String) : Option NodeData :=
  master.reverse.find? (fun m => nameOf m == n)

/-- `detectUpgrades(master, source)`: for each source node whose name has a
`masterByName` entry with a different version, record the triple. -/
def detectUpgrades (master source : List NodeData) : List Upgrade :=
  source.filterMap (fun s =>
    match masterByName master (nameOf s) with
    | some m => if versionOf m != versionOf s then some ⟨nameOf s, m, s⟩ else none
    | none => none)

/-- `run`: `introducedRaw.filter(d => !upgrades.some(u => keyOf(u.to) === keyOf(d)))`. -/
def introducedF (master source : List NodeData) : List NodeData :=
  (computeDiff source master).filter
    (fun d => !((detectUpgrades master source).any (fun u => keyOf u.toDep == keyOf d)))

/-- `run`: `removedRaw.filter(d => !upgrades.some(u => keyOf(u.from) === keyOf(d)))`. -/
def removedF (master source : List NodeData) : List NodeData :=
  (computeDiff master source).filter
    (fun d => !((detectUpgrades master source).any (fun u => keyOf u.fromDep == keyOf d)))

/-- "Is the key of `d` an upgrade's `from` key" — the Removed-side exclusion
test of `run`. -/
def UpgradedFrom (master source : List NodeData) (d : NodeData) : Prop :=
  ∃ u ∈ detectUpgrades master source, keyOf u.fromDep = keyOf d

/-- "Is the key of `d` an upgrade's `to` key" — the Introduced-side exclusion
test of `run`. -/
def UpgradedTo (master source : List NodeData) (d : NodeData) : Prop :=
  ∃ u ∈ detectUpgrades master source, keyOf u.toDep = keyOf d

/-- "`d`'s `name@version` key occurs in the forest `f`". -/
def PresentIn (f : List NodeData) (d : NodeData) : Prop :=
  ∃ s ∈ f, keyOf s = keyOf d

/-- Membership in exactly one of three categories. -/
def ExactlyOne (p q r : Prop) : Prop :=
  (p ∧ ¬q ∧ ¬r) ∨ (¬p ∧ q ∧ ¬r) ∨ (¬p ∧ ¬q ∧ r)

-- Convenience nodes for concrete tests.
def mkDep (n v : String) : NodeData :=
  ⟨ComponentIdentifier.createMavenIdentifier (some "g") (some n) (some "jar") (some "") (some v),
    none, [], false, some false⟩


/-! ## C10: the `"n/a"` sentinel and the `name@version` key -/

def depEmptyVersion : NodeData := createDependencyFromMavenCoordinates ["g", "a", "jar", ""]

def depNoVersion : NodeData := createDependencyFromMavenCoordinates ["g2", "a", "jar"]

/-- C10: `getVersion` returns the `"n/a"` sentinel both when the version
field is absent (here: a 3-part coordinate leaves it `undefined`) and when it
is present as the empty string; consequently `keyOf` gives both nodes the
same `name@version` identity key even though their identifiers differ, and
`computeDiff` treats the one as present in a forest containing only the
other. -/
theorem c10_empty_version_conflated :
    ComponentIdentifier.getVersion depEmptyVersion.identifier = "n/a"
    ∧ ComponentIdentifier.getVersion depNoVersion.identifier = "n/a"
    ∧ jsGet depEmptyVersion.identifier.coordinates "version" = some ""
    ∧ jsGet depNoVersion.identifier.coordinates "version" = none
    ∧ keyOf depEmptyVersion = keyOf depNoVersion
    ∧ depEmptyVersion.identifier ≠ depNoVersion.identifier
    ∧ computeDiff [depEmptyVersion] [depNoVersion] = [] := by
  refine ⟨by decide, by decide, by decide, by decide, by decide, by decide, by decide⟩
theorem mem_filter_not {α : Type} {l : List α} {p : α → Bool} {P : α → Prop}
    (hp : ∀ a, p a = true ↔ P a) (d : α) :
    d ∈ l.filter (fun a => !(p a)) ↔ d ∈ l ∧ ¬ P d := by
  rw [List.mem_filter]
  constructor
  · rintro ⟨h1, h2⟩
    refine ⟨h1, fun hP => ?_⟩
    simp [(hp d).mpr hP] at h2
  · rintro ⟨h1, h2⟩
    refine ⟨h1, ?_⟩
    cases hb : p d
    · simp
    · exact absurd ((hp d).mp hb) h2

theorem contains_key_iff {r : List NodeData} {d : NodeData} :
    (r.map keyOf).contains (keyOf d) = true ↔ PresentIn r d := by
  rw [List.contains_iff_exists_mem_beq]
  constructor
  · rintro ⟨k, hk, hb⟩
    obtain ⟨s, hs, rfl⟩ := List.mem_map.mp hk
    exact ⟨s, hs, (beq_iff_eq.mp hb).symm⟩
  · rintro ⟨s, hs, he⟩
    exact ⟨keyOf s, List.mem_map_of_mem _ hs, beq_iff_eq.mpr he.symm⟩

theorem any_fromKey_iff {a b : List NodeData} {d : NodeData} :
    ((detectUpgrades a b).any (fun u => keyOf u.fromDep == keyOf d)) = true
      ↔ UpgradedFrom a b d := by
  rw [List.any_eq_true]
  simp [UpgradedFrom]

theorem any_toKey_iff {a b : List NodeData} {d : NodeData} :
    ((detectUpgrades a b).any (fun u => keyOf u.toDep == keyOf d)) = true
      ↔ UpgradedTo a b d := by
  rw [List.any_eq_true]
  simp [UpgradedTo]

theorem mem_computeDiff {l r : List NodeData} {d : NodeData} :
    d ∈ computeDiff l r ↔ d ∈ l ∧ ¬ PresentIn r d := by
  rw [computeDiff, mem_filter_not (fun a => contains_key_iff) d]

theorem mem_removedF {master source : List NodeData} {d : NodeData} :
    d ∈ removedF master source
      ↔ d ∈ master ∧ ¬ PresentIn source d ∧ ¬ UpgradedFrom master source d := by
  rw [removedF, mem_filter_not (fun a => any_fromKey_iff) d, mem_computeDiff,
    and_assoc]

theorem mem_introducedF {master source : List NodeData} {d : NodeData} :
    d ∈ introducedF master source
      ↔ d ∈ source ∧ ¬ PresentIn master d ∧ ¬ UpgradedTo master source d := by
  rw [introducedF, mem_filter_not (fun a => any_toKey_iff) d, mem_computeDiff,
    and_assoc]

theorem mem_detectUpgrades {master source : List NodeData} {u : Upgrade} :
    u ∈ detectUpgrades master source
      ↔ ∃ s ∈ source, ∃ m, masterByName master (nameOf s) = some m
          ∧ versionOf m ≠ versionOf s ∧ u = ⟨nameOf s, m, s⟩ := by
  simp only [detectUpgrades, List.mem_filterMap]
  constructor
  · rintro ⟨s, hs, hf⟩
    cases hm : masterByName master (nameOf s) with
    | none => simp [hm] at hf
    | some m =>
      simp only [hm] at hf
      by_cases hv : versionOf m = versionOf s
      · simp [hv] at hf
      · simp only [bne_iff_ne, ne_eq, hv, not_false_eq_true, if_true,
          Option.some_inj] at hf
        exact ⟨s, hs, m, hm, hv, hf.symm⟩
  · rintro ⟨s, hs, m, hm, hv, rfl⟩
    refine ⟨s, hs, ?_⟩
    rw [hm]
    simp [bne_iff_ne, hv]

theorem masterByName_mem {master : List NodeData} {n : String} {m : NodeData}
    (h : masterByName master n = some m) : m ∈ master ∧ nameOf m = n := by
  unfold masterByName at h
  refine ⟨List.mem_reverse.mp (List.mem_of_find?_eq_some h), ?_⟩
  have := List.find?_some h
  simpa using this

/-! ## C2: upgrade cross-filtering and disjointness of the result sets -/

/-- C2: every pair recorded as an upgrade is excluded from the final
Introduced list (its `to` key) and from the final Removed list (its `from`
key); moreover no `name@version` key is shared across the Introduced,
Removed and Upgraded categories: an introduced node's key differs from every
removed node's key and from both keys of every upgrade, and symmetrically
for removed nodes. -/
theorem c2_cross_filtering (master source : List NodeData) :
    (∀ u ∈ detectUpgrades master source,
      (∀ d ∈ introducedF master source,
        keyOf d ≠ keyOf u.toDep ∧ keyOf d ≠ keyOf u.fromDep)
      ∧ (∀ d ∈ removedF master source,
        keyOf d ≠ keyOf u.fromDep ∧ keyOf d ≠ keyOf u.toDep))
    ∧ ∀ d ∈ introducedF master source, ∀ e ∈ removedF master source,
        keyOf d ≠ keyOf e := by
  constructor
  · intro u hu
    obtain ⟨s0, hs0, m0, hm0, hv0, rfl⟩ := mem_detectUpgrades.mp hu
    have hmA : m0 ∈ master := (masterByName_mem hm0).1
    constructor
    · intro d hd
      obtain ⟨hdB, hnpA, hnup⟩ := mem_introducedF.mp hd
      constructor
      · intro hk
        exact hnup ⟨⟨nameOf s0, m0, s0⟩, hu, hk.symm⟩
      · intro hk
        exact hnpA ⟨m0, hmA, hk.symm⟩
    · intro d hd
      obtain ⟨hdA, hnpB, hnup⟩ := mem_removedF.mp hd
      constructor
      · intro hk
        exact hnup ⟨⟨nameOf s0, m0, s0⟩, hu, hk.symm⟩
      · intro hk
        exact hnpB ⟨s0, hs0, hk.symm⟩
  · intro d hd e he
    obtain ⟨hdB, hnpA, _⟩ := mem_introducedF.mp hd
    obtain ⟨heA, _, _⟩ := mem_removedF.mp he
    intro hk
    exact hnpA ⟨e, heA, hk.symm⟩

/-- Witness for C2 at a concrete pair of forests with one upgrade, one
introduction and one removal. -/
theorem c2_cross_filtering_witness :
    (⟨"a", mkDep "a" "1", mkDep "a" "2"⟩ : Upgrade)
        ∈ detectUpgrades [mkDep "a" "1", mkDep "b" "1"] [mkDep "a" "2", mkDep "c" "1"]
    ∧ ∀ d ∈ introducedF [mkDep "a" "1", mkDep "b" "1"] [mkDep "a" "2", mkDep "c" "1"],
        keyOf d ≠ keyOf (mkDep "a" "2") ∧ keyOf d ≠ keyOf (mkDep "a" "1") :=
  ⟨by decide,
    (((c2_cross_filtering [mkDep "a" "1", mkDep "b" "1"] [mkDep "a" "2", mkDep "c" "1"]).1
      ⟨"a", mkDep "a" "1", mkDep "a" "2"⟩ (by decide)).1)⟩

/-! ## C4: coordinate parse / lookup-serialization round trip -/

/-- Substring test used to state which fields appear in a serialization. -/
def containsStr (s pat : String) : Bool := decide (pat.data <:+: s.data)

set_option maxRecDepth 4096 in
/-- C4 counterexample: for a 4-part coordinate string the classifier field
*does* appear in the lookup serialization (with value `""`), refuting the
claim that it appears only when the 6-part shape was used. -/
theorem c4_counterexample :
    containsStr
      (ComponentIdentifier.toJson
        (createDependencyFromMavenCoordinates ["g", "a", "jar", "1.0"]).identifier)
      "\"classifier\"" = true
    ∧ ComponentIdentifier.toJson
        (createDependencyFromMavenCoordinates ["g", "a", "jar", "1.0"]).identifier
      = "\x7b\"format\":\"maven\",\"coordinates\":\x7b\"groupId\":\"g\",\"artifactId\":\"a\",\"version\":\"1.0\",\"classifier\":\"\",\"extension\":\"jar\"\x7d\x7d" := by
  exact ⟨by decide, by decide⟩

/-- C4 (amended): for every 4-, 5- or 6-part coordinate string, parsing and
then serializing for lookup preserves group, artifact, version and extension
exactly; the classifier field always appears — as the empty string for the
4- and 5-part shapes and as the parsed 6-part classifier otherwise; and the
scope (the 5th part of the 5-part shape, 6th of the 6-part shape) never
appears: the serialization is literally independent of `s`. -/
theorem c4_roundtrip_amended (g a e c v s : String) :
    (ComponentIdentifier.toJson
        (createDependencyFromMavenCoordinates [g, a, e, v]).identifier
      = "\x7b\"format\":\"maven\",\"coordinates\":\x7b"
          ++ ComponentIdentifier.joinEntries
              [("groupId", some g), ("artifactId", some a), ("version", some v),
               ("classifier", some ""), ("extension", some e)]
          ++ "\x7d\x7d")
    ∧ (ComponentIdentifier.toJson
        (createDependencyFromMavenCoordinates [g, a, e, v, s]).identifier
      = "\x7b\"format\":\"maven\",\"coordinates\":\x7b"
          ++ ComponentIdentifier.joinEntries
              [("groupId", some g), ("artifactId", some a), ("version", some v),
               ("classifier", some ""), ("extension", some e)]
          ++ "\x7d\x7d")
    ∧ (ComponentIdentifier.toJson
        (createDependencyFromMavenCoordinates [g, a, e, c, v, s]).identifier
      = "\x7b\"format\":\"maven\",\"coordinates\":\x7b"
          ++ ComponentIdentifier.joinEntries
              [("groupId", some g), ("artifactId", some a), ("version", some v),
               ("classifier", some c), ("extension", some e)]
          ++ "\x7d\x7d") :=
  ⟨rfl, rfl, rfl⟩

/-! ## C1: diff completeness -/

/-- C1 counterexample: with baseline `A = [a@1]` and candidate
`B = [a@1, a@2]` (two candidate roots sharing the artifact name `a`), the
baseline root `a@1` is simultaneously an upgrade's `from` key (the differ
records the upgrade `a: 1 -> 2`) *and* present in `B` with the same
`name@version` key, so it falls into two of the three categories, refuting
the claimed exactly-one partition. -/
theorem c1_counterexample :
    mkDep "a" "1" ∈ [mkDep "a" "1"]
    ∧ ¬ ExactlyOne
        (mkDep "a" "1" ∈ removedF [mkDep "a" "1"] [mkDep "a" "1", mkDep "a" "2"])
        (UpgradedFrom [mkDep "a" "1"] [mkDep "a" "1", mkDep "a" "2"] (mkDep "a" "1"))
        (PresentIn [mkDep "a" "1", mkDep "a" "2"] (mkDep "a" "1")) := by
  refine ⟨by decide, ?_⟩
  unfold ExactlyOne UpgradedFrom PresentIn
  decide

theorem pairwise_name_inj {l : List NodeData}
    (h : l.Pairwise (fun x y => nameOf x ≠ nameOf y)) :
    ∀ a ∈ l, ∀ b ∈ l, nameOf a = nameOf b → a = b := by
  induction l with
  | nil => intro a ha; cases ha
  | cons x xs ih =>
    rw [List.pairwise_cons] at h
    intro a ha b hb hn
    rcases List.mem_cons.mp ha with ha1 | ha2
    · rcases List.mem_cons.mp hb with hb1 | hb2
      · rw [ha1, hb1]
      · rw [ha1] at hn
        exact absurd hn (h.1 b hb2)
    · rcases List.mem_cons.mp hb with hb1 | hb2
      · have hn2 := hn.symm
        rw [hb1] at hn2
        exact absurd hn2 (h.1 a ha2)
      · exact ih h.2 a ha2 b hb2 hn

/-- C1 (amended): the exactly-one partition of the diff holds under two
provisos the counterexample forces: artifact names are pairwise distinct
within each forest's root list, and the `name@version` string key determines
the (name, version) pair among the roots involved (which holds whenever no
artifact name contains `'@'`).  Then every baseline root is in exactly one of
{final Removed list, upgrade `from` key, present in the candidate with the
same key}, and every candidate root is in exactly one of {final Introduced
list, upgrade `to` key, present in the baseline with the same key}. -/
theorem c1_diff_completeness_amended (A B : List NodeData)
    (hA : A.Pairwise (fun x y => nameOf x ≠ nameOf y))
    (hB : B.Pairwise (fun x y => nameOf x ≠ nameOf y))
    (hinj : ∀ x ∈ A ++ B, ∀ y ∈ A ++ B,
      keyOf x = keyOf y → nameOf x = nameOf y ∧ versionOf x = versionOf y) :
    (∀ m ∈ A, ExactlyOne (m ∈ removedF A B) (UpgradedFrom A B m) (PresentIn B m))
    ∧ (∀ s ∈ B, ExactlyOne (s ∈ introducedF A B) (UpgradedTo A B s) (PresentIn A s)) := by
  constructor
  · intro m hm
    by_cases hP : PresentIn B m
    · by_cases hU : UpgradedFrom A B m
      · exfalso
        obtain ⟨u, hu, hk⟩ := hU
        obtain ⟨s0, hs0, m0, hm0, hv0, rfl⟩ := mem_detectUpgrades.mp hu
        obtain ⟨hm0A, hm0n⟩ := masterByName_mem hm0
        obtain ⟨s, hs, hks⟩ := hP
        have hkey : keyOf s = keyOf m0 := by
          dsimp only at hk
          rw [hks, ← hk]
        have hnv := hinj s (List.mem_append_right A hs) m0 (List.mem_append_left B hm0A) hkey
        have hss0 : s = s0 :=
          pairwise_name_inj hB s hs s0 hs0 (hnv.1.trans hm0n)
        exact hv0 (hnv.2.symm.trans (by rw [hss0]))
      · refine Or.inr (Or.inr ⟨?_, hU, hP⟩)
        intro hr
        exact (mem_removedF.mp hr).2.1 hP
    · by_cases hU : UpgradedFrom A B m
      · refine Or.inr (Or.inl ⟨?_, hU, hP⟩)
        intro hr
        exact (mem_removedF.mp hr).2.2 hU
      · exact Or.inl ⟨mem_removedF.mpr ⟨hm, hP, hU⟩, hU, hP⟩
  · intro s hsB
    by_cases hP : PresentIn A s
    · by_cases hU : UpgradedTo A B s
      · exfalso
        obtain ⟨u, hu, hk⟩ := hU
        obtain ⟨s0, hs0, m0, hm0, hv0, rfl⟩ := mem_detectUpgrades.mp hu
        obtain ⟨hm0A, hm0n⟩ := masterByName_mem hm0
        obtain ⟨t, ht, hkt⟩ := hP
        have hkey : keyOf t = keyOf s0 := by
          dsimp only at hk
          rw [hkt, ← hk]
        have hnv := hinj t (List.mem_append_left B ht) s0
          (List.mem_append_right A hs0) hkey
        have htm0 : t = m0 :=
          pairwise_name_inj hA t ht m0 hm0A (hnv.1.trans hm0n.symm)
        rw [htm0] at hnv
        exact hv0 hnv.2
      · refine Or.inr (Or.inr ⟨?_, hU, hP⟩)
        intro hr
        exact (mem_introducedF.mp hr).2.1 hP
    · by_cases hU : UpgradedTo A B s
      · refine Or.inr (Or.inl ⟨?_, hU, hP⟩)
        intro hr
        exact (mem_introducedF.mp hr).2.2 hU
      · exact Or.inl ⟨mem_introducedF.mpr ⟨hsB, hP, hU⟩, hU, hP⟩

/-- Witness for C1 (amended) at `A = [a@1, b@1]`, `B = [a@2]`: hypotheses are
discharged by computation and the partition is obtained from the theorem. -/
theorem c1_diff_completeness_witness :
    ([mkDep "a" "1", mkDep "b" "1"].Pairwise (fun x y => nameOf x ≠ nameOf y))
    ∧ ([mkDep "a" "2"].Pairwise (fun x y => nameOf x ≠ nameOf y))
    ∧ (∀ x ∈ [mkDep "a" "1", mkDep "b" "1"] ++ [mkDep "a" "2"],
        ∀ y ∈ [mkDep "a" "1", mkDep "b" "1"] ++ [mkDep "a" "2"],
        keyOf x = keyOf y → nameOf x = nameOf y ∧ versionOf x = versionOf y)
    ∧ ((∀ m ∈ [mkDep "a" "1", mkDep "b" "1"],
          ExactlyOne (m ∈ removedF [mkDep "a" "1", mkDep "b" "1"] [mkDep "a" "2"])
            (UpgradedFrom [mkDep "a" "1", mkDep "b" "1"] [mkDep "a" "2"] m)
            (PresentIn [mkDep "a" "2"] m))
        ∧ (∀ s ∈ [mkDep "a" "2"],
          ExactlyOne (s ∈ introducedF [mkDep "a" "1", mkDep "b" "1"] [mkDep "a" "2"])
            (UpgradedTo [mkDep "a" "1", mkDep "b" "1"] [mkDep "a" "2"] s)
            (PresentIn [mkDep "a" "1", mkDep "b" "1"] s))) :=
  ⟨by decide, by decide, by decide,
    c1_diff_completeness_amended [mkDep "a" "1", mkDep "b" "1"] [mkDep "a" "2"]
      (by decide) (by decide) (by decide)⟩

/-! ## The graph text parser (`parseDependencyTreeOutput`) -/

/-- Prefix test over characters (`line.startsWith('[INFO] digraph')`). -/
def startsWithChars : List Char → List Char → Bool
  | [], _ => true
  | _ :: _, [] => false
  | p :: ps, c :: cs => p == c && startsWithChars ps cs

/-- The line scanner of `parseDependencyTreeOutput`: a line starting with
`[INFO] digraph` opens a fresh buffer, the exact line `"[INFO]  } "` closes
it (appending it to the module list), and other lines are buffered only
while inside a digraph section.  Arguments: remaining lines, the
`inDiagraphSection` flag, modules collected so far, the current buffer. -/
def collectModulesGo : List String → Bool → List (List String) → List String →
    List (List String)
  | [], _, acc, _ => acc
  | l :: rest, inSec, acc, cur =>
    if startsWithChars "[INFO] digraph".data l.data then
      collectModulesGo rest true acc []
    else if l = "[INFO]  \x7d " then
      collectModulesGo rest false (acc ++ [cur]) []
    else if inSec then
      collectModulesGo rest true acc (cur ++ [l])
    else
      collectModulesGo rest false acc cur

def collectModules (lines : List String) : List (List String) :=
  collectModulesGo lines false [] []

/-- Match of the edge regex `/"([^"]+)" -> "([^"]+)"/` anchored at the start
of the given character list: a nonempty run of non-quote characters in
quotes, the literal ` -> `, and a second nonempty quoted run. -/
def matchEdgeAt (cs : List Char) : Option (String × String) :=
  match cs with
  | '"' :: rest =>
    let a := rest.takeWhile (fun c => c != '"')
    if a.isEmpty then none
    else
      match rest.drop a.length with
      | '"' :: ' ' :: '-' :: '>' :: ' ' :: '"' :: rest2 =>
        let b := rest2.takeWhile (fun c => c != '"')
        if b.isEmpty then none
        else
          match rest2.drop b.length with
          | '"' :: _ => some (String.mk a, String.mk b)
          | _ => none
      | _ => none
  | _ => none

/-- Leftmost match of the edge regex in a line: `RegExp.exec` scans start
positions left to right; since `[^"]+` is a maximal run of non-quote
characters, no backtracking inside a start position is possible. -/
def findEdge : List Char → Option (String × String)
  | [] => none
  | c :: rest =>
    match matchEdgeAt (c :: rest) with
    | some r => some r
    | none => findEdge rest

def matchEdge (line : String) : Option (String × String) := findEdge line.data

/-- The parser state threaded through the edge loop: the node arena, the
per-module `parsedDependencies` map from raw coordinate string to node, and
the cross-module `dependencies` root list. -/
structure ParseState where
  store : Store
  pmap : List (String × Nat)
  roots : List Nat
deriving DecidableEq

def lookupStr (m : List (String × Nat)) (s : String) : Option Nat :=
  match m.find? (fun kv => kv.1 == s) with
  | some kv => some kv.2
  | none => none

/-- Resolve a left-hand (source) endpoint: reuse the node registered for this
raw coordinate string, or create one, register it, and push it onto the
root list (`dependencies.push(leftDependency)`). -/
def resolveLeft (st : ParseState) (coord : String) : ParseState × Nat :=
  match lookupStr st.pmap coord with
  | some id => (st, id)
  | none =>
    let node := createDependencyFromMavenCoordinates (splitOnColon coord.data)
    let id := st.store.nodes.length
    (⟨⟨st.store.nodes ++ [node]⟩, st.pmap ++ [(coord, id)], st.roots ++ [id]⟩, id)

/-- Resolve a right-hand (target) endpoint: as `resolveLeft` but without the
root registration. -/
def resolveRight (st : ParseState) (coord : String) : ParseState × Nat :=
  match lookupStr st.pmap coord with
  | some id => (st, id)
  | none =>
    let node := createDependencyFromMavenCoordinates (splitOnColon coord.data)
    let id := st.store.nodes.length
    (⟨⟨st.store.nodes ++ [node]⟩, st.pmap ++ [(coord, id)], st.roots⟩, id)

/-- Process one matched edge `"left" -> "right"`: resolve both endpoints in
order, then append the right node to the left node's child list. -/
def processEdge (st : ParseState) (e : String × String) : ParseState :=
  let p1 := resolveLeft st e.1
  let p2 := resolveRight p1.1 e.2
  ⟨updateNode p2.1.store p1.2 (fun n => { n with children := n.children ++ [p2.2] }),
    p2.1.pmap, p2.1.roots⟩

/-- Process one buffered module: empty modules are skipped, otherwise the
per-module map starts fresh and every line that matches the edge regex is
processed (non-matching lines are dropped by `if (!matches) continue`). -/
def processModule (st : ParseState) (module : List String) : ParseState :=
  if module.length == 0 then st
  else (module.filterMap matchEdge).foldl processEdge { st with pmap := [] }

def parseForest (modules : List (List String)) : ParseState :=
  modules.foldl processModule ⟨⟨[]⟩, [], []⟩

/-! ## The tree normalizer (tail of `parseDependencyTreeOutput`) -/

/-- `dependencies.filter(v => v.identifier.coordinates.get('extension') !== 'pom')`. -/
def filterPoms (σ : Store) (roots : List Nat) : List Nat :=
  roots.filter (fun rid =>
    !(jsGet (getNode σ rid).identifier.coordinates "extension" == some "pom"))

/-- `!dependencies.some(dep => child.identifier.equals(dep.identifier))`:
keep a child only when its identifier equals no surviving root's identifier. -/
def rootFilterPred (σ : Store) (roots : List Nat) (cid : Nat) : Bool :=
  !(roots.any (fun rt =>
    ComponentIdentifier.equals (getNode σ cid).identifier (getNode σ rt).identifier))

def markDirect (σ : Store) (cid : Nat) : Store :=
  updateNode σ cid (fun n => { n with isDirect := some true })

/-- One iteration of the multi-root `forEach`: filter this module root's
children, reset its flags (`isDirect = undefined`, `isModule = true`), then
mark each remaining child direct. -/
def stepRoot (roots : List Nat) (σ : Store) (rid : Nat) : Store :=
  let nc := (getNode σ rid).children.filter (rootFilterPred σ roots)
  let σ1 := updateNode σ rid
    (fun n => { n with children := nc, isDirect := none, isModule := true })
  nc.foldl markDirect σ1

def normalizeMulti (σ : Store) (roots : List Nat) : Store :=
  roots.foldl (stepRoot roots) σ

/-- The single-root branch: `dependencies[0].children.map(dep => ({...dep,
isDirect: true}))` — one shallow copy per child appended to the arena. -/
def copyChildrenAsDirect (σ : Store) (cs : List Nat) : Store :=
  ⟨σ.nodes ++ cs.map (fun cid => { getNode σ cid with isDirect := some true })⟩

/-- The post-processing of `parseDependencyTreeOutput`: drop pom roots, then
either restructure module roots (more than one root), replace a single root
by direct copies of its children, or return the empty forest.  (Named
`normalizeForest` here only because Mathlib already declares `normalize`.) -/
def normalizeForest (σ : Store) (roots : List Nat) : Store × List Nat :=
  let fr := filterPoms σ roots
  if fr.length > 1 then (normalizeMulti σ fr, fr)
  else if fr.length == 1 then
    ((copyChildrenAsDirect σ (getNode σ (fr.headD 0)).children),
      (List.range (getNode σ (fr.headD 0)).children.length).map
        (fun k => σ.nodes.length + k))
  else (σ, fr)

/-- `parseDependencyTreeOutput` over the already line-split input (the
source's `split(/\r?\n/)` is modelled by taking the line list directly). -/
def parseDependencyTreeOutput (lines : List String) : Store × List Nat :=
  let st := parseForest (collectModules lines)
  normalizeForest st.store st.roots


/-! ## C3: out-of-shape coordinate strings -/

def c3lines : List String :=
  ["[INFO] digraph mod1",
   "[INFO]  \"g:a:jar\" -> \"g:b:jar:1.0\" ;",
   "[INFO]  \x7d "]

/-- C3 counterexample: an edge endpoint with 3 colon-delimited parts does
*not* make the parse fail — there is no ParseError anywhere in the code.  The
parse of this input returns a complete forest (here the single-root branch
fires, so the forest is the copy of `b`), and the 3-part endpoint is parsed
through the 6-part branch, leaving its version `undefined`. -/
theorem c3_counterexample :
    (parseDependencyTreeOutput c3lines).2 = [2]
    ∧ (getNode (parseDependencyTreeOutput c3lines).1 2).identifier.getName = "b"
    ∧ (getNode (parseDependencyTreeOutput c3lines).1 0).identifier.getName = "a"
    ∧ ComponentIdentifier.getVersion
        (getNode (parseDependencyTreeOutput c3lines).1 0).identifier = "n/a"
    ∧ jsGet (getNode (parseDependencyTreeOutput c3lines).1 0).identifier.coordinates
        "version" = none := by
  exact ⟨by decide, by decide, by decide, by decide, by decide⟩

/-- C3 (amended): a coordinate string whose part count is not 4 and not 5 is
parsed through the 6-part branch with no error: fields beyond the available
parts are left `undefined`, and in particular a 3-part coordinate yields an
identifier with no version, whose `getVersion` is the `"n/a"` sentinel. -/
theorem c3_amended (parts : List String)
    (h4 : parts.length ≠ 4) (h5 : parts.length ≠ 5) :
    createDependencyFromMavenCoordinates parts =
      ⟨ComponentIdentifier.createMavenIdentifier (parts.get? 0) (parts.get? 1)
          (parts.get? 2) (parts.get? 3) (parts.get? 4),
        parts.get? 5, [], false, some false⟩
    ∧ (parts.length = 3 →
        ComponentIdentifier.getVersion
          (createDependencyFromMavenCoordinates parts).identifier = "n/a") := by
  have hmain : createDependencyFromMavenCoordinates parts =
      ⟨ComponentIdentifier.createMavenIdentifier (parts.get? 0) (parts.get? 1)
          (parts.get? 2) (parts.get? 3) (parts.get? 4),
        parts.get? 5, [], false, some false⟩ := by
    unfold createDependencyFromMavenCoordinates
    rw [if_neg (by simp [h4]), if_neg (by simp [h5])]
  refine ⟨hmain, fun h3 => ?_⟩
  rw [hmain]
  have hget4 : parts[4]? = none := List.getElem?_eq_none (by omega)
  simp [ComponentIdentifier.getVersion, ComponentIdentifier.createMavenIdentifier,
    jsGet, hget4]

/-- Witness for C3 (amended) at the 3-part coordinate `g:a:jar`. -/
theorem c3_amended_witness :
    (["g", "a", "jar"] : List String).length ≠ 4
    ∧ (["g", "a", "jar"] : List String).length ≠ 5
    ∧ (createDependencyFromMavenCoordinates ["g", "a", "jar"] =
        ⟨ComponentIdentifier.createMavenIdentifier (some "g") (some "a") (some "jar")
            none none, none, [], false, some false⟩
      ∧ ((["g", "a", "jar"] : List String).length = 3 →
          ComponentIdentifier.getVersion
            (createDependencyFromMavenCoordinates ["g", "a", "jar"]).identifier = "n/a")) :=
  ⟨by decide, by decide, c3_amended ["g", "a", "jar"] (by decide) (by decide)⟩

/-! ## C9: non-matching lines inside a digraph block -/

/-- The edge loop as written in `src/index.ts` (lines 210–216) and in the
earlier standalone revision: `const left = matches![1]` dereferences the
regex result *without* a null check, so on a buffered line that does not
match the edge pattern the JS runtime throws a TypeError, which aborts the
whole parse call.  Modelled as an `Except` over the module's lines. -/
def extractEdgesIndexTs (module : List String) :
    Except String (List (String × String)) :=
  module.mapM (fun l =>
    match matchEdge l with
    | some e => Except.ok e
    | none => Except.error "TypeError: Cannot read properties of null")

/-- C9: the claim (and the tidied latest revision, whose `if (!matches)
continue` is embedded in `processModule`) says non-matching lines inside a
digraph block are skipped silently; `src/index.ts` instead throws on such a
line.  At the failing input — a digraph block containing the non-edge line
`"[INFO]  junk line"` — the `index.ts` loop errors out, while the guarded
parser returns exactly the forest of the same input without that line. -/
theorem c9_nonmatching_line_raises :
    extractEdgesIndexTs ["[INFO]  junk line", "[INFO]  \"g:a:jar:1\" -> \"g:b:jar:1\" ;"]
      = Except.error "TypeError: Cannot read properties of null"
    ∧ collectModules
        ["[INFO] digraph mod1", "[INFO]  junk line",
         "[INFO]  \"g:a:jar:1\" -> \"g:b:jar:1\" ;", "[INFO]  \x7d "]
      = [["[INFO]  junk line", "[INFO]  \"g:a:jar:1\" -> \"g:b:jar:1\" ;"]]
    ∧ parseDependencyTreeOutput
        ["[INFO] digraph mod1", "[INFO]  junk line",
         "[INFO]  \"g:a:jar:1\" -> \"g:b:jar:1\" ;", "[INFO]  \x7d "]
      = parseDependencyTreeOutput
        ["[INFO] digraph mod1",
         "[INFO]  \"g:a:jar:1\" -> \"g:b:jar:1\" ;", "[INFO]  \x7d "] := by
  exact ⟨by rfl, by decide, by decide⟩

/-! ## C8: root registration -/

/-- Does the first matched edge mentioning `s` have `s` as its left-hand
endpoint?  (A left occurrence on the same edge as a right occurrence counts
as left, because the loop resolves the left endpoint first.) -/
def firstSeenAsLeft (s : String) : List (String × String) → Bool
  | [] => false
  | e :: es =>
    if e.1 = s then true
    else if e.2 = s then false
    else firstSeenAsLeft s es

def c8lines : List String :=
  ["[INFO] digraph mod1",
   "[INFO]  \"g:a:jar:1\" -> \"g:b:jar:1\" ;",
   "[INFO]  \"g:b:jar:1\" -> \"g:c:jar:1\" ;",
   "[INFO]  \x7d "]

/-- C8 counterexample: in a subgraph with edges `a -> b` and `b -> c`, the
string `g:b:jar:1` is seen as a left-hand endpoint for the first time on the
second edge, yet it is *not* registered as a subgraph root: the root list
holds only node 0 (`a`), because `b` was already in the per-subgraph map
from its earlier right-hand occurrence and the left-endpoint branch only
registers newly created nodes. -/
theorem c8_counterexample :
    ((collectModules c8lines).headD []).filterMap matchEdge
      = [("g:a:jar:1", "g:b:jar:1"), ("g:b:jar:1", "g:c:jar:1")]
    ∧ (parseForest (collectModules c8lines)).roots = [0]
    ∧ lookupStr (parseForest (collectModules c8lines)).pmap "g:b:jar:1" = some 1
    ∧ (getNode (parseForest (collectModules c8lines)).store 1).identifier.getName = "b"
    ∧ 1 ∉ (parseForest (collectModules c8lines)).roots := by
  exact ⟨by decide, by decide, by decide, by decide, by decide⟩

/-! ## C5 and C7 concrete inputs -/

def c5lines : List String :=
  ["[INFO] digraph mod1",
   "[INFO]  \"g:m1:jar:1\" -> \"g:a:jar:1\" ;",
   "[INFO]  \"g:m2:jar:1\" -> \"g:b:jar:1\" ;",
   "[INFO]  \"g:b:jar:1\" -> \"g:a:jar:1\" ;",
   "[INFO]  \x7d "]

/-- C5 counterexample: after multi-root normalization of a subgraph with
module roots `m1`, `m2` where `a` is both an immediate child of `m1` and a
grandchild of `m2` (via `b`), the shared node `a` (index 1) carries
`isDirect = true` — so a deeper descendant of the surviving root `m2` does
*not* keep the default Transitive classification. -/
theorem c5_counterexample :
    (parseDependencyTreeOutput c5lines).2 = [0, 2]
    ∧ (getNode (parseDependencyTreeOutput c5lines).1 2).isModule = true
    ∧ 3 ∈ (getNode (parseDependencyTreeOutput c5lines).1 2).children
    ∧ 1 ∈ (getNode (parseDependencyTreeOutput c5lines).1 3).children
    ∧ (getNode (parseDependencyTreeOutput c5lines).1 1).isDirect = some true := by
  exact ⟨by decide, by decide, by decide, by decide, by decide⟩

def c7lines : List String :=
  ["[INFO] digraph mod1",
   "[INFO]  \"g:r:jar:1\" -> \"g:x:jar:1\" ;",
   "[INFO]  \"g:r:jar:1\" -> \"g:y:jar:1\" ;",
   "[INFO]  \x7d "]

/-- C7 counterexample: normalizing the single-root forest `r -> {x, y}`
yields the two-root forest of the copies of `x` and `y`, both Direct and
with no pom-typed node anywhere; feeding that forest back through the
normalizer takes the multi-root branch and reclassifies both roots as
modules (`isDirect` changes from `some true` to `none`), so normalization is
not idempotent on classifications. -/
theorem c7_counterexample :
    (parseDependencyTreeOutput c7lines).2 = [3, 4]
    ∧ (∀ i, i < (parseDependencyTreeOutput c7lines).1.nodes.length →
        jsGet (getNode (parseDependencyTreeOutput c7lines).1 i).identifier.coordinates
          "extension" ≠ some "pom")
    ∧ (getNode (parseDependencyTreeOutput c7lines).1 3).isDirect = some true
    ∧ (getNode (parseDependencyTreeOutput c7lines).1 3).isModule = false
    ∧ (getNode
        (normalizeForest (parseDependencyTreeOutput c7lines).1
          (parseDependencyTreeOutput c7lines).2).1 3).isDirect = none
    ∧ (getNode
        (normalizeForest (parseDependencyTreeOutput c7lines).1
          (parseDependencyTreeOutput c7lines).2).1 3).isModule = true := by
  exact ⟨by decide, by decide, by decide, by decide, by decide, by decide⟩

/-! ## C6: single-root normalization -/

/-- C6: whenever exactly one root `rid` survives the pom filter, the
returned forest consists of fresh copies of that root's immediate children,
in order — the `k`-th new root is the `k`-th child with `isDirect` re-marked
`true` and every other field unchanged — the root itself is discarded from
the returned forest, and no pre-existing node of the arena is modified. -/
theorem c6_single_root (σ : Store) (roots : List Nat) (rid : Nat)
    (h1 : filterPoms σ roots = [rid]) (hv : rid < σ.nodes.length) :
    ((normalizeForest σ roots).2).length = (getNode σ rid).children.length
    ∧ (∀ k, k < (getNode σ rid).children.length →
        ((normalizeForest σ roots).2).getD k 0 = σ.nodes.length + k
        ∧ getNode (normalizeForest σ roots).1 (σ.nodes.length + k)
          = { getNode σ ((getNode σ rid).children.getD k 0) with isDirect := some true })
    ∧ rid ∉ (normalizeForest σ roots).2
    ∧ (∀ i, i < σ.nodes.length → getNode (normalizeForest σ roots).1 i = getNode σ i) := by
  have hb : normalizeForest σ roots =
      (copyChildrenAsDirect σ (getNode σ rid).children,
        (List.range (getNode σ rid).children.length).map (fun k => σ.nodes.length + k)) := by
    unfold normalizeForest
    rw [h1]
    norm_num
  rw [hb]
  refine ⟨by simp, fun k hk => ⟨?_, ?_⟩, ?_, fun i hi => ?_⟩
  · rw [List.getD_eq_getElem?_getD, List.getElem?_map, List.getElem?_range hk]
    rfl
  · show ((σ.nodes ++ (getNode σ rid).children.map
        (fun cid => { getNode σ cid with isDirect := some true })).getD
          (σ.nodes.length + k) defaultNode) = _
    rw [List.getD_eq_getElem?_getD,
      List.getElem?_append_right (Nat.le_add_right _ _)]
    have hsub : σ.nodes.length + k - σ.nodes.length = k := by omega
    rw [hsub, List.getElem?_map, List.getElem?_eq_getElem hk]
    have hgd : (getNode σ rid).children.getD k 0 = (getNode σ rid).children[k] :=
      List.getD_eq_getElem _ _ hk
    rw [hgd]
    rfl
  · simp only [List.mem_map, List.mem_range]
    rintro ⟨k, hk, hrid⟩
    omega
  · show ((σ.nodes ++ (getNode σ rid).children.map
        (fun cid => { getNode σ cid with isDirect := some true })).getD i defaultNode)
      = getNode σ i
    rw [List.getD_eq_getElem?_getD, List.getElem?_append_left hi, getNode,
      List.getD_eq_getElem?_getD]

/-- Witness for C6 at a concrete single-root store (root 0 with children
1, 2). -/
theorem c6_single_root_witness :
    filterPoms ⟨[⟨mkDep "r" "1" |>.identifier, none, [1, 2], false, some false⟩,
        mkDep "x" "1", mkDep "y" "1"]⟩ [0] = [0]
    ∧ (0 : Nat) < (⟨[⟨mkDep "r" "1" |>.identifier, none, [1, 2], false, some false⟩,
        mkDep "x" "1", mkDep "y" "1"]⟩ : Store).nodes.length
    ∧ ((normalizeForest ⟨[⟨mkDep "r" "1" |>.identifier, none, [1, 2], false, some false⟩,
        mkDep "x" "1", mkDep "y" "1"]⟩ [0]).2).length
      = (getNode ⟨[⟨mkDep "r" "1" |>.identifier, none, [1, 2], false, some false⟩,
        mkDep "x" "1", mkDep "y" "1"]⟩ 0).children.length :=
  ⟨by decide, by decide,
    (c6_single_root ⟨[⟨mkDep "r" "1" |>.identifier, none, [1, 2], false, some false⟩,
        mkDep "x" "1", mkDep "y" "1"]⟩ [0] 0 (by decide) (by decide)).1⟩

/-! ## Infrastructure for C8: invariants of the edge-processing loop -/

def StValid (st : ParseState) : Prop :=
  (∀ kv ∈ st.pmap, kv.2 < st.store.nodes.length)
    ∧ ∀ id ∈ st.roots, id < st.store.nodes.length

theorem lookupStr_append (m : List (String × Nat)) (c : String) (id : Nat) (s : String) :
    lookupStr (m ++ [(c, id)]) s =
      match lookupStr m s with
      | some j => some j
      | none => if c == s then some id else none := by
  unfold lookupStr
  rw [List.find?_append]
  cases h : m.find? (fun kv => kv.1 == s) with
  | some kv => simp [h, Option.orElse]
  | none =>
    cases hcs : (c == s) with
    | true => simp [h, Option.orElse, List.find?, hcs]
    | false => simp [h, Option.orElse, List.find?, hcs]

theorem resolveLeft_found {st : ParseState} {c : String} {j : Nat}
    (h : lookupStr st.pmap c = some j) : resolveLeft st c = (st, j) := by
  unfold resolveLeft
  rw [h]

theorem resolveLeft_new {st : ParseState} {c : String}
    (h : lookupStr st.pmap c = none) :
    resolveLeft st c =
      (⟨⟨st.store.nodes ++ [createDependencyFromMavenCoordinates (splitOnColon c.data)]⟩,
        st.pmap ++ [(c, st.store.nodes.length)],
        st.roots ++ [st.store.nodes.length]⟩, st.store.nodes.length) := by
  unfold resolveLeft
  rw [h]

theorem resolveRight_found {st : ParseState} {c : String} {j : Nat}
    (h : lookupStr st.pmap c = some j) : resolveRight st c = (st, j) := by
  unfold resolveRight
  rw [h]

theorem resolveRight_new {st : ParseState} {c : String}
    (h : lookupStr st.pmap c = none) :
    resolveRight st c =
      (⟨⟨st.store.nodes ++ [createDependencyFromMavenCoordinates (splitOnColon c.data)]⟩,
        st.pmap ++ [(c, st.store.nodes.length)], st.roots⟩, st.store.nodes.length) := by
  unfold resolveRight
  rw [h]

/-- Monotonicity facts relating a parse state to any later one. -/
def StepRel (st st' : ParseState) : Prop :=
  st.store.nodes.length ≤ st'.store.nodes.length
    ∧ (∀ s i, lookupStr st.pmap s = some i → lookupStr st'.pmap s = some i)
    ∧ (∀ i, i ∈ st.roots → i ∈ st'.roots)
    ∧ (∀ i, i < st.store.nodes.length → i ∉ st.roots → i ∉ st'.roots)
    ∧ (StValid st → StValid st')

theorem stepRel_refl (st : ParseState) : StepRel st st :=
  ⟨Nat.le_refl _, fun _ _ h => h, fun _ h => h, fun _ _ h => h, fun h => h⟩

theorem stepRel_trans {a b c : ParseState} (h1 : StepRel a b) (h2 : StepRel b c) :
    StepRel a c := by
  obtain ⟨l1, m1, r1, f1, v1⟩ := h1
  obtain ⟨l2, m2, r2, f2, v2⟩ := h2
  refine ⟨Nat.le_trans l1 l2, fun s i h => m2 s i (m1 s i h), fun i h => r2 i (r1 i h),
    fun i hi hr => ?_, fun h => v2 (v1 h)⟩
  exact f2 i (Nat.lt_of_lt_of_le hi l1) (f1 i hi hr)

theorem updateNode_length (σ : Store) (i : Nat) (f : NodeData → NodeData) :
    (updateNode σ i f).nodes.length = σ.nodes.length := by
  simp [updateNode]

theorem stepRel_resolveLeft (st : ParseState) (c : String) :
    StepRel st (resolveLeft st c).1 := by
  cases h : lookupStr st.pmap c with
  | some j =>
    rw [resolveLeft_found h]
    exact stepRel_refl st
  | none =>
    rw [resolveLeft_new h]
    refine ⟨by simp, ?_, ?_, ?_, ?_⟩
    · intro s i hsi
      simp only [lookupStr_append, hsi]
    · intro i hi
      exact List.mem_append_left _ hi
    · intro i hi hr
      simp only [List.mem_append, List.mem_singleton]
      rintro (h2 | h2)
      · exact hr h2
      · omega
    · rintro ⟨hp, hr⟩
      constructor
      · intro kv hkv
        simp only [List.length_append, List.length_singleton]
        rcases List.mem_append.mp hkv with h2 | h2
        · exact Nat.lt_succ_of_lt (hp kv h2)
        · rw [List.mem_singleton.mp h2]
          simp
      · intro id hid
        simp only [List.length_append, List.length_singleton]
        rcases List.mem_append.mp hid with h2 | h2
        · exact Nat.lt_succ_of_lt (hr id h2)
        · rw [List.mem_singleton.mp h2]
          simp

theorem stepRel_resolveRight (st : ParseState) (c : String) :
    StepRel st (resolveRight st c).1 := by
  cases h : lookupStr st.pmap c with
  | some j =>
    rw [resolveRight_found h]
    exact stepRel_refl st
  | none =>
    rw [resolveRight_new h]
    refine ⟨by simp, ?_, fun i hi => hi, fun i _ hr => hr, ?_⟩
    · intro s i hsi
      simp only [lookupStr_append, hsi]
    · rintro ⟨hp, hr⟩
      constructor
      · intro kv hkv
        simp only [List.length_append, List.length_singleton]
        rcases List.mem_append.mp hkv with h2 | h2
        · exact Nat.lt_succ_of_lt (hp kv h2)
        · rw [List.mem_singleton.mp h2]
          simp
      · intro id hid
        simp only [List.length_append, List.length_singleton]
        exact Nat.lt_succ_of_lt (hr id hid)

theorem processEdge_pmap (st : ParseState) (e : String × String) :
    (processEdge st e).pmap = (resolveRight (resolveLeft st e.1).1 e.2).1.pmap := rfl

theorem processEdge_roots (st : ParseState) (e : String × String) :
    (processEdge st e).roots = (resolveRight (resolveLeft st e.1).1 e.2).1.roots := rfl

theorem processEdge_storeLen (st : ParseState) (e : String × String) :
    (processEdge st e).store.nodes.length
      = (resolveRight (resolveLeft st e.1).1 e.2).1.store.nodes.length := by
  show (updateNode _ _ _).nodes.length = _
  exact updateNode_length _ _ _

theorem stepRel_processEdge (st : ParseState) (e : String × String) :
    StepRel st (processEdge st e) := by
  have h12 := stepRel_trans (stepRel_resolveLeft st e.1)
    (stepRel_resolveRight (resolveLeft st e.1).1 e.2)
  have h3 : StepRel (resolveRight (resolveLeft st e.1).1 e.2).1 (processEdge st e) := by
    refine ⟨?_, ?_, ?_, ?_, ?_⟩
    · rw [processEdge_storeLen]
    · intro s i hsi
      rw [processEdge_pmap]
      exact hsi
    · intro i hi
      rw [processEdge_roots]
      exact hi
    · intro i _ hr
      rw [processEdge_roots]
      exact hr
    · rintro ⟨hp, hr⟩
      constructor
      · intro kv hkv
        rw [processEdge_storeLen]
        exact hp kv (by rw [processEdge_pmap] at hkv; exact hkv)
      · intro id hid
        rw [processEdge_storeLen]
        exact hr id (by rw [processEdge_roots] at hid; exact hid)
  exact stepRel_trans h12 h3

theorem stepRel_foldl (es : List (String × String)) (st : ParseState) :
    StepRel st (es.foldl processEdge st) := by
  induction es generalizing st with
  | nil => exact stepRel_refl st
  | cons e rest ih =>
    exact stepRel_trans (stepRel_processEdge st e) (ih (processEdge st e))

theorem lookupStr_append_ne {m : List (String × Nat)} {c : String} {id : Nat} {s : String}
    (h : c ≠ s) : lookupStr (m ++ [(c, id)]) s = lookupStr m s := by
  rw [lookupStr_append]
  cases hm : lookupStr m s with
  | some j => rfl
  | none => simp [h]

theorem lookupStr_lt {st : ParseState} (hv : StValid st) {s : String} {j : Nat}
    (h : lookupStr st.pmap s = some j) : j < st.store.nodes.length := by
  unfold lookupStr at h
  cases hf : st.pmap.find? (fun kv => kv.1 == s) with
  | none => rw [hf] at h; cases h
  | some kv =>
    rw [hf] at h
    cases h
    exact hv.1 kv (List.mem_of_find?_eq_some hf)

theorem pe_none {st : ParseState} {e : String × String} {s : String}
    (h1 : e.1 ≠ s) (h2 : e.2 ≠ s) (h : lookupStr st.pmap s = none) :
    lookupStr (processEdge st e).pmap s = none := by
  rw [processEdge_pmap]
  have hs1 : lookupStr (resolveLeft st e.1).1.pmap s = none := by
    cases hl : lookupStr st.pmap e.1 with
    | some j => rw [resolveLeft_found hl]; exact h
    | none =>
      rw [resolveLeft_new hl]
      dsimp only
      rw [lookupStr_append_ne h1]
      exact h
  cases hr : lookupStr (resolveLeft st e.1).1.pmap e.2 with
  | some j => rw [resolveRight_found hr]; exact hs1
  | none =>
    rw [resolveRight_new hr]
    dsimp only
    rw [lookupStr_append_ne h2]
    exact hs1

theorem pe_left_first {st : ParseState} {e : String × String} {s : String}
    (he : e.1 = s) (h : lookupStr st.pmap s = none) :
    lookupStr (processEdge st e).pmap s = some st.store.nodes.length
    ∧ st.store.nodes.length ∈ (processEdge st e).roots := by
  rw [processEdge_pmap, processEdge_roots, he, resolveLeft_new (he ▸ h)]
  dsimp only
  have hl : lookupStr (st.pmap ++ [(s, st.store.nodes.length)]) s
      = some st.store.nodes.length := by
    simp [lookupStr_append, h]
  have hrel := stepRel_resolveRight
    ⟨⟨st.store.nodes ++ [createDependencyFromMavenCoordinates (splitOnColon s.data)]⟩,
      st.pmap ++ [(s, st.store.nodes.length)], st.roots ++ [st.store.nodes.length]⟩ e.2
  exact ⟨hrel.2.1 s _ hl,
    hrel.2.2.1 _ (List.mem_append_right _ (List.mem_singleton_self _))⟩

theorem pe_right_first {st : ParseState} {e : String × String} {s : String}
    (he1 : e.1 ≠ s) (he2 : e.2 = s) (h : lookupStr st.pmap s = none) (hv : StValid st) :
    ∃ j, lookupStr (processEdge st e).pmap s = some j ∧ j ∉ (processEdge st e).roots := by
  rw [processEdge_pmap, processEdge_roots]
  have hrel1 := stepRel_resolveLeft st e.1
  have hs1 : lookupStr (resolveLeft st e.1).1.pmap s = none := by
    cases hl : lookupStr st.pmap e.1 with
    | some j => rw [resolveLeft_found hl]; exact h
    | none =>
      rw [resolveLeft_new hl]
      dsimp only
      rw [lookupStr_append_ne he1]
      exact h
  have hv1 : StValid (resolveLeft st e.1).1 := hrel1.2.2.2.2 hv
  rw [he2, resolveRight_new hs1]
  dsimp only
  refine ⟨(resolveLeft st e.1).1.store.nodes.length, by simp [lookupStr_append, hs1], ?_⟩
  intro hmem
  exact absurd (hv1.2 _ hmem) (lt_irrefl _)

theorem foldG1 (es : List (String × String)) :
    ∀ st s, StValid st → lookupStr st.pmap s = none → firstSeenAsLeft s es = true →
      ∃ id, lookupStr ((es.foldl processEdge st)).pmap s = some id
        ∧ id ∈ (es.foldl processEdge st).roots ∧ st.store.nodes.length ≤ id := by
  induction es with
  | nil =>
    intro st s _ _ hf
    cases hf
  | cons e rest ih =>
    intro st s hv hn hf
    unfold firstSeenAsLeft at hf
    by_cases h1 : e.1 = s
    · obtain ⟨hl, hr⟩ := pe_left_first h1 hn
      have hrel := stepRel_foldl rest (processEdge st e)
      exact ⟨st.store.nodes.length, hrel.2.1 _ _ hl, hrel.2.2.1 _ hr, le_refl _⟩
    · by_cases h2 : e.2 = s
      · rw [if_neg h1, if_pos h2] at hf
        cases hf
      · rw [if_neg h1, if_neg h2] at hf
        have hn2 : lookupStr (processEdge st e).pmap s = none := pe_none h1 h2 hn
        have hv2 := (stepRel_processEdge st e).2.2.2.2 hv
        obtain ⟨id, ha, hb, hc⟩ := ih (processEdge st e) s hv2 hn2 hf
        exact ⟨id, ha, hb, le_trans (stepRel_processEdge st e).1 hc⟩

theorem foldG2 (es : List (String × String)) :
    ∀ st s, StValid st → lookupStr st.pmap s = none → firstSeenAsLeft s es = false →
      ∀ id, lookupStr (es.foldl processEdge st).pmap s = some id →
        id ∉ (es.foldl processEdge st).roots := by
  induction es with
  | nil =>
    intro st s _ hn _ id hid
    rw [List.foldl_nil] at hid
    rw [hn] at hid
    cases hid
  | cons e rest ih =>
    intro st s hv hn hf id hid
    unfold firstSeenAsLeft at hf
    by_cases h1 : e.1 = s
    · rw [if_pos h1] at hf
      cases hf
    · by_cases h2 : e.2 = s
      · obtain ⟨j, hj1, hj2⟩ := pe_right_first h1 h2 hn hv
        have hv2 := (stepRel_processEdge st e).2.2.2.2 hv
        have hrel := stepRel_foldl rest (processEdge st e)
        have hfin : lookupStr ((e :: rest).foldl processEdge st).pmap s = some j := by
          rw [List.foldl_cons]
          exact hrel.2.1 _ _ hj1
        rw [hfin] at hid
        have hji := Option.some_inj.mp hid
        subst hji
        rw [List.foldl_cons]
        exact hrel.2.2.2.1 j (lookupStr_lt hv2 hj1) hj2
      · rw [if_neg h1, if_neg h2] at hf
        exact ih (processEdge st e) s ((stepRel_processEdge st e).2.2.2.2 hv)
          (pe_none h1 h2 hn) hf id hid

/-- C8 (amended): within one subgraph, a coordinate string is registered as
a subgraph root iff the *first matched edge mentioning it at all* has it as
its left-hand endpoint.  In particular a string first seen as a right-hand
(target) endpoint is never registered as a root, even when a later edge has
it on the left — the left-endpoint branch registers only strings that are
not yet in the per-subgraph map. -/
theorem c8_root_registration_amended (module : List String) (σ0 : Store)
    (pm0 : List (String × Nat)) (r0 : List Nat) (s : String)
    (hm : module.length ≠ 0)
    (hr : ∀ id ∈ r0, id < σ0.nodes.length) :
    (∃ id, lookupStr (processModule ⟨σ0, pm0, r0⟩ module).pmap s = some id
        ∧ id ∈ (processModule ⟨σ0, pm0, r0⟩ module).roots ∧ id ∉ r0)
      ↔ firstSeenAsLeft s (module.filterMap matchEdge) = true := by
  have hpm : processModule ⟨σ0, pm0, r0⟩ module
      = (module.filterMap matchEdge).foldl processEdge ⟨σ0, [], r0⟩ := by
    unfold processModule
    rw [if_neg (by simpa using hm)]
  rw [hpm]
  have hv : StValid ⟨σ0, [], r0⟩ := ⟨by simp, hr⟩
  have hn : lookupStr ([] : List (String × Nat)) s = none := rfl
  constructor
  · rintro ⟨id, h1, h2, _⟩
    cases hf : firstSeenAsLeft s (module.filterMap matchEdge) with
    | true => rfl
    | false => exact absurd h2 (foldG2 _ ⟨σ0, [], r0⟩ s hv hn hf id h1)
  · intro hf
    obtain ⟨id, h1, h2, h3⟩ := foldG1 _ ⟨σ0, [], r0⟩ s hv hn hf
    refine ⟨id, h1, h2, fun hmem => ?_⟩
    have := hr id hmem
    dsimp only at h3
    omega

/-- Witness for C8 (amended) on a one-edge module. -/
theorem c8_root_registration_witness :
    (["[INFO]  \"g:a:jar:1\" -> \"g:b:jar:1\" ;"] : List String).length ≠ 0
    ∧ (∀ id ∈ ([] : List Nat), id < (⟨[]⟩ : Store).nodes.length)
    ∧ ((∃ id, lookupStr (processModule ⟨⟨[]⟩, [], []⟩
            ["[INFO]  \"g:a:jar:1\" -> \"g:b:jar:1\" ;"]).pmap "g:a:jar:1" = some id
          ∧ id ∈ (processModule ⟨⟨[]⟩, [], []⟩
            ["[INFO]  \"g:a:jar:1\" -> \"g:b:jar:1\" ;"]).roots ∧ id ∉ ([] : List Nat))
        ↔ firstSeenAsLeft "g:a:jar:1"
            ((["[INFO]  \"g:a:jar:1\" -> \"g:b:jar:1\" ;"] : List String).filterMap matchEdge)
          = true) :=
  ⟨by decide, by decide,
    c8_root_registration_amended ["[INFO]  \"g:a:jar:1\" -> \"g:b:jar:1\" ;"]
      ⟨[]⟩ [] [] "g:a:jar:1" (by decide) (by decide)⟩

/-! ## Infrastructure for C5 and C7: a characterization of `normalizeMulti` -/

theorem getNode_updateNode (σ : Store) (j : Nat) (f : NodeData → NodeData) (i : Nat) :
    getNode (updateNode σ j f) i =
      if i = j ∧ j < σ.nodes.length then f (getNode σ j) else getNode σ i := by
  unfold updateNode getNode
  by_cases hij : i = j
  · subst hij
    by_cases hlen : i < σ.nodes.length
    · simp [List.getD_eq_getElem?_getD, List.getElem?_set_self hlen, hlen]
    · rw [List.set_eq_of_length_le (Nat.le_of_not_lt hlen)]
      simp [hlen]
  · simp [List.getD_eq_getElem?_getD, List.getElem?_set_ne (fun h => hij h.symm), hij]

theorem equals_refl (ci : ComponentIdentifier) :
    ComponentIdentifier.equals ci ci = true := by
  unfold ComponentIdentifier.equals
  refine (Bool.and_eq_true _ _).mpr ⟨(Bool.and_eq_true _ _).mpr ⟨?_, ?_⟩, ?_⟩
  · exact beq_self_eq_true ci.format
  · rw [List.all_eq_true]
    intro kv _
    exact beq_self_eq_true (jsGet ci.coordinates kv.1)
  · rw [List.all_eq_true]
    intro kv hkv
    unfold jsHas
    rw [List.any_eq_true]
    exact ⟨kv, hkv, beq_self_eq_true kv.1⟩

theorem rootFilterPred_self_root {σ : Store} {roots : List Nat} {r : Nat}
    (hr : r ∈ roots) : rootFilterPred σ roots r = false := by
  have h : roots.any (fun rt => ComponentIdentifier.equals
      (getNode σ r).identifier (getNode σ rt).identifier) = true :=
    List.any_eq_true.mpr ⟨r, hr, equals_refl _⟩
  unfold rootFilterPred
  rw [h]
  rfl

theorem markDirect_length (σ : Store) (c : Nat) :
    (markDirect σ c).nodes.length = σ.nodes.length := updateNode_length σ c _

theorem foldl_markDirect_length (cs : List Nat) (σ : Store) :
    (cs.foldl markDirect σ).nodes.length = σ.nodes.length := by
  induction cs generalizing σ with
  | nil => rfl
  | cons c rest ih => rw [List.foldl_cons, ih, markDirect_length]

theorem getNode_foldl_markDirect (cs : List Nat) (σ : Store) (i : Nat)
    (hcs : ∀ c ∈ cs, c < σ.nodes.length) :
    getNode (cs.foldl markDirect σ) i =
      if i ∈ cs then { getNode σ i with isDirect := some true } else getNode σ i := by
  induction cs generalizing σ with
  | nil => simp
  | cons c rest ih =>
    rw [List.foldl_cons]
    have hc : c < σ.nodes.length := hcs c (List.mem_cons_self c rest)
    have hrest : ∀ x ∈ rest, x < (markDirect σ c).nodes.length := by
      rw [markDirect_length]
      exact fun x hx => hcs x (List.mem_cons_of_mem c hx)
    rw [ih (markDirect σ c) hrest]
    have hmd : ∀ j, getNode (markDirect σ c) j =
        if j = c then { getNode σ c with isDirect := some true } else getNode σ j := by
      intro j
      rw [markDirect, getNode_updateNode]
      by_cases hj : j = c
      · simp [hj, hc]
      · simp [hj]
    by_cases h1 : i ∈ rest
    · rw [if_pos h1, if_pos (List.mem_cons_of_mem c h1), hmd i]
      by_cases h2 : i = c
      · subst h2
        rw [if_pos rfl]
      · rw [if_neg h2]
    · rw [if_neg h1, hmd i]
      by_cases h2 : i = c
      · subst h2
        rw [if_pos rfl, if_pos (List.mem_cons_self i rest)]
      · rw [if_neg h2, if_neg (by simp [h1, h2])]

theorem getNode_update_then_mark (σ : Store) (rid : Nat) (ncl : List Nat) (i : Nat)
    (hrid : rid < σ.nodes.length) (hv : ∀ c ∈ ncl, c < σ.nodes.length)
    (hrn : rid ∉ ncl) :
    getNode (ncl.foldl markDirect (updateNode σ rid (fun n =>
        { n with children := ncl, isDirect := none, isModule := true }))) i =
      if i = rid then { getNode σ rid with children := ncl, isDirect := none, isModule := true }
      else if i ∈ ncl then { getNode σ i with isDirect := some true }
      else getNode σ i := by
  have hv2 : ∀ c ∈ ncl, c < (updateNode σ rid (fun n =>
      { n with children := ncl, isDirect := none, isModule := true })).nodes.length := by
    rw [updateNode_length]
    exact hv
  rw [getNode_foldl_markDirect _ _ _ hv2]
  have hup : ∀ j, getNode (updateNode σ rid (fun n =>
      { n with children := ncl, isDirect := none, isModule := true })) j =
      if j = rid then { getNode σ rid with children := ncl, isDirect := none, isModule := true }
      else getNode σ j := by
    intro j
    rw [getNode_updateNode]
    by_cases hj : j = rid
    · simp [hj, hrid]
    · simp [hj]
  by_cases h1 : i = rid
  · subst h1
    rw [if_neg hrn, hup i, if_pos rfl, if_pos rfl]
  · by_cases h2 : i ∈ ncl
    · rw [if_pos h2, hup i, if_neg h1, if_neg h1, if_pos h2]
    · rw [if_neg h2, hup i, if_neg h1, if_neg h1, if_neg h2]

theorem stepRoot_length (roots : List Nat) (σ : Store) (rid : Nat) :
    (stepRoot roots σ rid).nodes.length = σ.nodes.length := by
  unfold stepRoot
  rw [foldl_markDirect_length, updateNode_length]

theorem stepRoot_eq (roots : List Nat) (σ : Store) (rid : Nat) :
    stepRoot roots σ rid =
      ((getNode σ rid).children.filter (rootFilterPred σ roots)).foldl markDirect
        (updateNode σ rid (fun n =>
          { n with
            children := (getNode σ rid).children.filter (rootFilterPred σ roots),
            isDirect := none, isModule := true })) := rfl

theorem getNode_stepRoot (roots : List Nat) (σ : Store) (rid : Nat) (i : Nat)
    (hrid : rid < σ.nodes.length) (hroot : rid ∈ roots)
    (hch : ∀ c ∈ (getNode σ rid).children, c < σ.nodes.length) :
    getNode (stepRoot roots σ rid) i =
      if i = rid then
        { getNode σ rid with
          children := (getNode σ rid).children.filter (rootFilterPred σ roots),
          isDirect := none, isModule := true }
      else if i ∈ (getNode σ rid).children.filter (rootFilterPred σ roots) then
        { getNode σ i with isDirect := some true }
      else getNode σ i := by
  have hrnc : rid ∉ (getNode σ rid).children.filter (rootFilterPred σ roots) := by
    intro hmem
    have h2 := (List.mem_filter.mp hmem).2
    rw [rootFilterPred_self_root hroot] at h2
    cases h2
  rw [stepRoot_eq]
  exact getNode_update_then_mark σ rid _ i hrid
    (fun c hc => hch c (List.mem_filter.mp hc).1) hrnc

theorem rootFilterPred_congr {σ₂ σ : Store}
    (h : ∀ i, (getNode σ₂ i).identifier = (getNode σ i).identifier)
    (roots : List Nat) (cid : Nat) :
    rootFilterPred σ₂ roots cid = rootFilterPred σ roots cid := by
  unfold rootFilterPred
  simp only [h]

theorem normMulti_char (roots : List Nat) :
    ∀ (rs : List Nat) (σ : Store), rs.Nodup → (∀ r ∈ rs, r ∈ roots) →
      (∀ r ∈ rs, r < σ.nodes.length) →
      (∀ r ∈ rs, ∀ c ∈ (getNode σ r).children, c < σ.nodes.length) →
      (∀ i ∈ rs, getNode (rs.foldl (stepRoot roots) σ) i =
          { getNode σ i with
            children := (getNode σ i).children.filter (rootFilterPred σ roots),
            isDirect := none, isModule := true })
      ∧ (∀ i, i ∉ rs →
          (∃ r ∈ rs, i ∈ (getNode σ r).children.filter (rootFilterPred σ roots)) →
          getNode (rs.foldl (stepRoot roots) σ) i = { getNode σ i with isDirect := some true })
      ∧ (∀ i, i ∉ rs →
          (∀ r ∈ rs, i ∉ (getNode σ r).children.filter (rootFilterPred σ roots)) →
          getNode (rs.foldl (stepRoot roots) σ) i = getNode σ i) := by
  intro rs
  induction rs with
  | nil =>
    intro σ _ _ _ _
    refine ⟨fun i hi => absurd hi (List.not_mem_nil i), fun i _ h => ?_, fun i _ _ => rfl⟩
    obtain ⟨r, hr, _⟩ := h
    exact absurd hr (List.not_mem_nil r)
  | cons r rest ih =>
    intro σ hnd hmem hv hch
    have hr_roots : r ∈ roots := hmem r (List.mem_cons_self r rest)
    have hr_len : r < σ.nodes.length := hv r (List.mem_cons_self r rest)
    have hr_ch : ∀ c ∈ (getNode σ r).children, c < σ.nodes.length :=
      hch r (List.mem_cons_self r rest)
    have hnd2 := List.nodup_cons.mp hnd
    have hsc : ∀ j, getNode (stepRoot roots σ r) j =
        if j = r then
          { getNode σ r with
            children := (getNode σ r).children.filter (rootFilterPred σ roots),
            isDirect := none, isModule := true }
        else if j ∈ (getNode σ r).children.filter (rootFilterPred σ roots) then
          { getNode σ j with isDirect := some true }
        else getNode σ j :=
      fun j => getNode_stepRoot roots σ r j hr_len hr_roots hr_ch
    have hident : ∀ j, (getNode (stepRoot roots σ r) j).identifier
        = (getNode σ j).identifier := by
      intro j
      rw [hsc j]
      by_cases h1 : j = r
      · rw [if_pos h1, h1]
      · rw [if_neg h1]
        by_cases h2 : j ∈ (getNode σ r).children.filter (rootFilterPred σ roots)
        · rw [if_pos h2]
        · rw [if_neg h2]
    have hpredf : rootFilterPred (stepRoot roots σ r) roots = rootFilterPred σ roots :=
      funext (rootFilterPred_congr hident roots)
    have hch1 : ∀ j, j ≠ r → (getNode (stepRoot roots σ r) j).children
        = (getNode σ j).children := by
      intro j hj
      rw [hsc j, if_neg hj]
      by_cases h2 : j ∈ (getNode σ r).children.filter (rootFilterPred σ roots)
      · rw [if_pos h2]
      · rw [if_neg h2]
    have hlen1 : (stepRoot roots σ r).nodes.length = σ.nodes.length :=
      stepRoot_length roots σ r
    have hmem2 : ∀ x ∈ rest, x ∈ roots := fun x hx => hmem x (List.mem_cons_of_mem r hx)
    have hv2 : ∀ x ∈ rest, x < (stepRoot roots σ r).nodes.length := by
      intro x hx
      rw [hlen1]
      exact hv x (List.mem_cons_of_mem r hx)
    have hch2 : ∀ x ∈ rest, ∀ c ∈ (getNode (stepRoot roots σ r) x).children,
        c < (stepRoot roots σ r).nodes.length := by
      intro x hx c hc
      rw [hch1 x (ne_of_mem_of_not_mem hx hnd2.1)] at hc
      rw [hlen1]
      exact hch x (List.mem_cons_of_mem r hx) c hc
    obtain ⟨ihA, ihB, ihC⟩ := ih (stepRoot roots σ r) hnd2.2 hmem2 hv2 hch2
    have hfold : (r :: rest).foldl (stepRoot roots) σ
        = rest.foldl (stepRoot roots) (stepRoot roots σ r) := rfl
    refine ⟨?_, ?_, ?_⟩
    · -- roots of the processed prefix
      intro i hi
      rw [hfold]
      rcases List.mem_cons.mp hi with h1 | h1
      · subst h1
        have hnone : ∀ x ∈ rest, i ∉ (getNode (stepRoot roots σ i) x).children.filter
            (rootFilterPred (stepRoot roots σ i) roots) := by
          intro x hx hmemf
          rw [hpredf, hch1 x (ne_of_mem_of_not_mem hx hnd2.1)] at hmemf
          have hp := (List.mem_filter.mp hmemf).2
          rw [rootFilterPred_self_root hr_roots] at hp
          cases hp
        rw [ihC i hnd2.1 hnone, hsc i, if_pos rfl]
      · have hir : i ≠ r := ne_of_mem_of_not_mem h1 hnd2.1
        rw [ihA i h1, hpredf, hch1 i hir]
        rw [hsc i, if_neg hir]
        by_cases h2 : i ∈ (getNode σ r).children.filter (rootFilterPred σ roots)
        · rw [if_pos h2]
        · rw [if_neg h2]
    · -- nodes marked direct
      intro i hi hex
      have hir : i ≠ r := fun h => hi (h ▸ List.mem_cons_self r rest)
      have hirest : i ∉ rest := fun h => hi (List.mem_cons_of_mem r h)
      rw [hfold]
      obtain ⟨r2, hr2, hi2⟩ := hex
      rcases List.mem_cons.mp hr2 with h1 | h1
      · -- marked by the head step
        subst h1
        have hσ1i : getNode (stepRoot roots σ r2) i = { getNode σ i with isDirect := some true } := by
          rw [hsc i, if_neg hir, if_pos hi2]
        by_cases hex2 : ∃ r3 ∈ rest, i ∈ (getNode (stepRoot roots σ r2) r3).children.filter
            (rootFilterPred (stepRoot roots σ r2) roots)
        · rw [ihB i hirest hex2, hσ1i]
        · rw [ihC i hirest (fun r3 hr3 hm => hex2 ⟨r3, hr3, hm⟩), hσ1i]
      · -- marked by a later step
        have hexσ1 : ∃ r3 ∈ rest, i ∈ (getNode (stepRoot roots σ r) r3).children.filter
            (rootFilterPred (stepRoot roots σ r) roots) := by
          refine ⟨r2, h1, ?_⟩
          rw [hpredf, hch1 r2 (ne_of_mem_of_not_mem h1 hnd2.1)]
          exact hi2
        rw [ihB i hirest hexσ1]
        rw [hsc i, if_neg hir]
        by_cases h2 : i ∈ (getNode σ r).children.filter (rootFilterPred σ roots)
        · rw [if_pos h2]
        · rw [if_neg h2]
    · -- untouched nodes
      intro i hi hall
      have hir : i ≠ r := fun h => hi (h ▸ List.mem_cons_self r rest)
      have hirest : i ∉ rest := fun h => hi (List.mem_cons_of_mem r h)
      rw [hfold]
      have hnc : i ∉ (getNode σ r).children.filter (rootFilterPred σ roots) :=
        hall r (List.mem_cons_self r rest)
      have hσ1i : getNode (stepRoot roots σ r) i = getNode σ i := by
        rw [hsc i, if_neg hir, if_neg hnc]
      rw [ihC i hirest ?_, hσ1i]
      intro r3 hr3 hm
      rw [hpredf, hch1 r3 (ne_of_mem_of_not_mem hr3 hnd2.1)] at hm
      exact hall r3 (List.mem_cons_of_mem r hr3) hm

theorem filter_idem {α : Type} (p : α → Bool) (l : List α) :
    (l.filter p).filter p = l.filter p := by
  induction l with
  | nil => rfl
  | cons a l ih =>
    by_cases h : p a = true
    · simp [List.filter_cons, h, ih]
    · simp [List.filter_cons, h, ih]

theorem foldl_stepRoot_length (roots : List Nat) (rs : List Nat) (σ : Store) :
    (rs.foldl (stepRoot roots) σ).nodes.length = σ.nodes.length := by
  induction rs generalizing σ with
  | nil => rfl
  | cons r rest ih => rw [List.foldl_cons, ih, stepRoot_length]

theorem store_ext {σ τ : Store} (hlen : σ.nodes.length = τ.nodes.length)
    (h : ∀ i, getNode σ i = getNode τ i) : σ = τ := by
  cases σ with
  | mk ns =>
    cases τ with
    | mk ms =>
      simp only at hlen
      congr 1
      apply List.ext_getElem?
      intro i
      by_cases hi : i < ns.length
      · rw [List.getElem?_eq_getElem hi, List.getElem?_eq_getElem (hlen ▸ hi)]
        have h2 := h i
        unfold getNode at h2
        simp only at h2
        rw [List.getD_eq_getElem?_getD, List.getD_eq_getElem?_getD,
          List.getElem?_eq_getElem hi, List.getElem?_eq_getElem (hlen ▸ hi)] at h2
        simpa using h2
      · rw [List.getElem?_eq_none (Nat.le_of_not_lt hi),
          List.getElem?_eq_none (hlen ▸ Nat.le_of_not_lt hi)]

/-- C5 (amended): when more than one root survives the pom filter, every
surviving root is reclassified as a Module (`isModule = true`,
`isDirect = undefined`), its child list is exactly its original children
minus those whose identifier equals any surviving root's identifier, every
remaining immediate child is marked Direct, and every other node — in
particular every deeper descendant that is *not* also an immediate child of
some surviving root — is left untouched (so it keeps the default Transitive
classification).  Because nodes are shared by reference within a subgraph, a
deeper descendant that *is* simultaneously an immediate child of a surviving
root ends up marked Direct, which is what the counterexample exhibits. -/
theorem c5_multi_root_amended (σ : Store) (roots : List Nat)
    (hnd : roots.Nodup)
    (hv : ∀ r ∈ roots, r < σ.nodes.length)
    (hch : ∀ i, i < σ.nodes.length → ∀ c ∈ (getNode σ i).children, c < σ.nodes.length)
    (hlen : (filterPoms σ roots).length > 1) :
    (normalizeForest σ roots).2 = filterPoms σ roots
    ∧ (∀ r ∈ filterPoms σ roots,
        (getNode (normalizeForest σ roots).1 r).isModule = true
        ∧ (getNode (normalizeForest σ roots).1 r).isDirect = none)
    ∧ (∀ r ∈ filterPoms σ roots,
        (getNode (normalizeForest σ roots).1 r).children
          = (getNode σ r).children.filter (rootFilterPred σ (filterPoms σ roots)))
    ∧ (∀ r ∈ filterPoms σ roots, ∀ c ∈ (getNode (normalizeForest σ roots).1 r).children,
        ∀ r2 ∈ filterPoms σ roots,
          ComponentIdentifier.equals (getNode (normalizeForest σ roots).1 c).identifier
            (getNode (normalizeForest σ roots).1 r2).identifier = false)
    ∧ (∀ r ∈ filterPoms σ roots, ∀ c ∈ (getNode (normalizeForest σ roots).1 r).children,
        (getNode (normalizeForest σ roots).1 c).isDirect = some true)
    ∧ (∀ i, i ∉ filterPoms σ roots →
        (∀ r ∈ filterPoms σ roots,
          i ∉ (getNode σ r).children.filter (rootFilterPred σ (filterPoms σ roots))) →
        getNode (normalizeForest σ roots).1 i = getNode σ i) := by
  have hb : normalizeForest σ roots
      = (normalizeMulti σ (filterPoms σ roots), filterPoms σ roots) := by
    simp only [normalizeForest]
    rw [if_pos hlen]
  have hfrnd : (filterPoms σ roots).Nodup := hnd.filter _
  have hfrv : ∀ r ∈ filterPoms σ roots, r < σ.nodes.length :=
    fun r hr => hv r (List.mem_filter.mp hr).1
  have hfrch : ∀ r ∈ filterPoms σ roots, ∀ c ∈ (getNode σ r).children, c < σ.nodes.length :=
    fun r hr => hch r (hfrv r hr)
  obtain ⟨chA0, chB0, chC0⟩ := normMulti_char (filterPoms σ roots) (filterPoms σ roots) σ
    hfrnd (fun r hr => hr) hfrv hfrch
  have chA : ∀ i ∈ filterPoms σ roots,
      getNode (normalizeMulti σ (filterPoms σ roots)) i =
        { getNode σ i with
          children := (getNode σ i).children.filter (rootFilterPred σ (filterPoms σ roots)),
          isDirect := none, isModule := true } := chA0
  have chB : ∀ i, i ∉ filterPoms σ roots →
      (∃ r ∈ filterPoms σ roots,
        i ∈ (getNode σ r).children.filter (rootFilterPred σ (filterPoms σ roots))) →
      getNode (normalizeMulti σ (filterPoms σ roots)) i
        = { getNode σ i with isDirect := some true } := chB0
  have chC : ∀ i, i ∉ filterPoms σ roots →
      (∀ r ∈ filterPoms σ roots,
        i ∉ (getNode σ r).children.filter (rootFilterPred σ (filterPoms σ roots))) →
      getNode (normalizeMulti σ (filterPoms σ roots)) i = getNode σ i := chC0
  have hident : ∀ i, (getNode (normalizeMulti σ (filterPoms σ roots)) i).identifier
      = (getNode σ i).identifier := by
    intro i
    by_cases h1 : i ∈ filterPoms σ roots
    · rw [chA i h1]
    · by_cases h2 : ∃ r ∈ filterPoms σ roots,
          i ∈ (getNode σ r).children.filter (rootFilterPred σ (filterPoms σ roots))
      · rw [chB i h1 h2]
      · rw [chC i h1 (fun r hr hm => h2 ⟨r, hr, hm⟩)]
  rw [hb]
  dsimp only
  refine ⟨rfl, ?_, ?_, ?_, ?_, ?_⟩
  · intro r hr
    rw [chA r hr]
    exact ⟨rfl, rfl⟩
  · intro r hr
    rw [chA r hr]
  · intro r hr c hc r2 hr2
    rw [chA r hr] at hc
    have hpred := (List.mem_filter.mp hc).2
    unfold rootFilterPred at hpred
    rw [Bool.not_eq_true', List.any_eq_false] at hpred
    rw [hident c, hident r2]
    exact Bool.eq_false_iff.mpr (hpred r2 hr2)
  · intro r hr c hc
    rw [chA r hr] at hc
    have hcnr : c ∉ filterPoms σ roots := by
      intro hcf
      have hpred := (List.mem_filter.mp hc).2
      rw [rootFilterPred_self_root hcf] at hpred
      cases hpred
    rw [chB c hcnr ⟨r, hr, hc⟩]
  · intro i h1 h2
    exact chC i h1 h2

/-- C7 (amended): re-normalization is a fixpoint exactly on the multi-root
branch.  If after the pom filter more than one root survives (and no node
carries the pom packaging type, so the filter also keeps everything on the
second pass), then feeding the normalized forest back through the normalizer
returns it unchanged — stores and root lists are equal, hence in particular
all relationship classifications.  The counterexample shows the claim fails
for forests produced by the single-root branch, whose roots are Direct
copies that the second pass reclassifies as modules. -/
theorem c7_idempotent_amended (σ : Store) (roots : List Nat)
    (hnd : roots.Nodup)
    (hv : ∀ r ∈ roots, r < σ.nodes.length)
    (hch : ∀ i, i < σ.nodes.length → ∀ c ∈ (getNode σ i).children, c < σ.nodes.length)
    (hnp : ∀ i, i < σ.nodes.length →
      jsGet (getNode σ i).identifier.coordinates "extension" ≠ some "pom")
    (hlen : (filterPoms σ roots).length > 1) :
    normalizeForest (normalizeForest σ roots).1 (normalizeForest σ roots).2
      = normalizeForest σ roots := by
  have hb : normalizeForest σ roots
      = (normalizeMulti σ (filterPoms σ roots), filterPoms σ roots) := by
    simp only [normalizeForest]
    rw [if_pos hlen]
  have hfrnd : (filterPoms σ roots).Nodup := hnd.filter _
  have hfrv : ∀ r ∈ filterPoms σ roots, r < σ.nodes.length :=
    fun r hr => hv r (List.mem_filter.mp hr).1
  have hfrch : ∀ r ∈ filterPoms σ roots, ∀ c ∈ (getNode σ r).children, c < σ.nodes.length :=
    fun r hr => hch r (hfrv r hr)
  obtain ⟨chA0, chB0, chC0⟩ := normMulti_char (filterPoms σ roots) (filterPoms σ roots) σ
    hfrnd (fun r hr => hr) hfrv hfrch
  have chA : ∀ i ∈ filterPoms σ roots,
      getNode (normalizeMulti σ (filterPoms σ roots)) i =
        { getNode σ i with
          children := (getNode σ i).children.filter (rootFilterPred σ (filterPoms σ roots)),
          isDirect := none, isModule := true } := chA0
  have chB : ∀ i, i ∉ filterPoms σ roots →
      (∃ r ∈ filterPoms σ roots,
        i ∈ (getNode σ r).children.filter (rootFilterPred σ (filterPoms σ roots))) →
      getNode (normalizeMulti σ (filterPoms σ roots)) i
        = { getNode σ i with isDirect := some true } := chB0
  have chC : ∀ i, i ∉ filterPoms σ roots →
      (∀ r ∈ filterPoms σ roots,
        i ∉ (getNode σ r).children.filter (rootFilterPred σ (filterPoms σ roots))) →
      getNode (normalizeMulti σ (filterPoms σ roots)) i = getNode σ i := chC0
  have hident : ∀ i, (getNode (normalizeMulti σ (filterPoms σ roots)) i).identifier
      = (getNode σ i).identifier := by
    intro i
    by_cases h1 : i ∈ filterPoms σ roots
    · rw [chA i h1]
    · by_cases h2 : ∃ r ∈ filterPoms σ roots,
          i ∈ (getNode σ r).children.filter (rootFilterPred σ (filterPoms σ roots))
      · rw [chB i h1 h2]
      · rw [chC i h1 (fun r hr hm => h2 ⟨r, hr, hm⟩)]
  have hlen1 : (normalizeMulti σ (filterPoms σ roots)).nodes.length = σ.nodes.length :=
    foldl_stepRoot_length (filterPoms σ roots) (filterPoms σ roots) σ
  have hpredf : rootFilterPred (normalizeMulti σ (filterPoms σ roots)) (filterPoms σ roots)
      = rootFilterPred σ (filterPoms σ roots) :=
    funext (rootFilterPred_congr hident (filterPoms σ roots))
  have hfp : filterPoms (normalizeMulti σ (filterPoms σ roots)) (filterPoms σ roots)
      = filterPoms σ roots := by
    have hall : ∀ r ∈ filterPoms σ roots,
        (!(jsGet (getNode (normalizeMulti σ (filterPoms σ roots)) r).identifier.coordinates
          "extension" == some "pom")) = true := by
      intro r hr
      rw [hident r]
      have hne := hnp r (hfrv r hr)
      simp [hne]
    exact List.filter_eq_self.mpr hall
  have hb2 : normalizeForest (normalizeMulti σ (filterPoms σ roots)) (filterPoms σ roots)
      = (normalizeMulti (normalizeMulti σ (filterPoms σ roots)) (filterPoms σ roots),
          filterPoms σ roots) := by
    simp only [normalizeForest]
    rw [show filterPoms (normalizeMulti σ (filterPoms σ roots)) (filterPoms σ roots)
        = filterPoms σ roots from hfp, if_pos hlen]
  have hfrv1 : ∀ r ∈ filterPoms σ roots,
      r < (normalizeMulti σ (filterPoms σ roots)).nodes.length := by
    intro r hr
    rw [hlen1]
    exact hfrv r hr
  have hfrch1 : ∀ r ∈ filterPoms σ roots,
      ∀ c ∈ (getNode (normalizeMulti σ (filterPoms σ roots)) r).children,
        c < (normalizeMulti σ (filterPoms σ roots)).nodes.length := by
    intro r hr c hc
    rw [chA r hr] at hc
    dsimp only at hc
    rw [hlen1]
    exact hfrch r hr c (List.mem_filter.mp hc).1
  obtain ⟨dhA0, dhB0, dhC0⟩ := normMulti_char (filterPoms σ roots) (filterPoms σ roots)
    (normalizeMulti σ (filterPoms σ roots)) hfrnd (fun r hr => hr) hfrv1 hfrch1
  have dhA : ∀ i ∈ filterPoms σ roots,
      getNode (normalizeMulti (normalizeMulti σ (filterPoms σ roots)) (filterPoms σ roots)) i =
        { getNode (normalizeMulti σ (filterPoms σ roots)) i with
          children := (getNode (normalizeMulti σ (filterPoms σ roots)) i).children.filter
            (rootFilterPred (normalizeMulti σ (filterPoms σ roots)) (filterPoms σ roots)),
          isDirect := none, isModule := true } := dhA0
  have dhB : ∀ i, i ∉ filterPoms σ roots →
      (∃ r ∈ filterPoms σ roots,
        i ∈ (getNode (normalizeMulti σ (filterPoms σ roots)) r).children.filter
          (rootFilterPred (normalizeMulti σ (filterPoms σ roots)) (filterPoms σ roots))) →
      getNode (normalizeMulti (normalizeMulti σ (filterPoms σ roots)) (filterPoms σ roots)) i
        = { getNode (normalizeMulti σ (filterPoms σ roots)) i with isDirect := some true } := dhB0
  have dhC : ∀ i, i ∉ filterPoms σ roots →
      (∀ r ∈ filterPoms σ roots,
        i ∉ (getNode (normalizeMulti σ (filterPoms σ roots)) r).children.filter
          (rootFilterPred (normalizeMulti σ (filterPoms σ roots)) (filterPoms σ roots))) →
      getNode (normalizeMulti (normalizeMulti σ (filterPoms σ roots)) (filterPoms σ roots)) i
        = getNode (normalizeMulti σ (filterPoms σ roots)) i := dhC0
  have hstores : normalizeMulti (normalizeMulti σ (filterPoms σ roots)) (filterPoms σ roots)
      = normalizeMulti σ (filterPoms σ roots) := by
    apply store_ext
    · exact foldl_stepRoot_length (filterPoms σ roots) (filterPoms σ roots)
        (normalizeMulti σ (filterPoms σ roots))
    · intro i
      by_cases h1 : i ∈ filterPoms σ roots
      · rw [dhA i h1, hpredf, chA i h1]
        dsimp only
        rw [filter_idem]
      · by_cases h2 : ∃ r ∈ filterPoms σ roots,
            i ∈ (getNode σ r).children.filter (rootFilterPred σ (filterPoms σ roots))
        · have h2b : ∃ r ∈ filterPoms σ roots,
              i ∈ (getNode (normalizeMulti σ (filterPoms σ roots)) r).children.filter
                (rootFilterPred (normalizeMulti σ (filterPoms σ roots)) (filterPoms σ roots)) := by
            obtain ⟨r, hr, hmem⟩ := h2
            refine ⟨r, hr, ?_⟩
            rw [hpredf, chA r hr]
            dsimp only
            rw [filter_idem]
            exact hmem
          rw [dhB i h1 h2b, chB i h1 h2]
        · have h2c : ∀ r ∈ filterPoms σ roots,
              i ∉ (getNode (normalizeMulti σ (filterPoms σ roots)) r).children.filter
                (rootFilterPred (normalizeMulti σ (filterPoms σ roots)) (filterPoms σ roots)) := by
            intro r hr hmem
            rw [hpredf, chA r hr] at hmem
            dsimp only at hmem
            rw [filter_idem] at hmem
            exact h2 ⟨r, hr, hmem⟩
          rw [dhC i h1 h2c, chC i h1 (fun r hr hm => h2 ⟨r, hr, hm⟩)]
  rw [hb]
  dsimp only
  rw [hb2, hstores]

def w5store : Store :=
  ⟨[⟨ComponentIdentifier.createMavenIdentifier (some "g") (some "m1") (some "jar")
      (some "") (some "1"), none, [2], false, some false⟩,
    ⟨ComponentIdentifier.createMavenIdentifier (some "g") (some "m2") (some "jar")
      (some "") (some "1"), none, [3], false, some false⟩,
    mkDep "a" "1", mkDep "b" "1"]⟩

def w5roots : List Nat := [0, 1]

/-- Witness for C5 (amended) at a concrete two-root store. -/
theorem c5_multi_root_witness :
    w5roots.Nodup
    ∧ (∀ r ∈ w5roots, r < w5store.nodes.length)
    ∧ (∀ i, i < w5store.nodes.length →
        ∀ c ∈ (getNode w5store i).children, c < w5store.nodes.length)
    ∧ (filterPoms w5store w5roots).length > 1
    ∧ (∀ r ∈ filterPoms w5store w5roots,
        (getNode (normalizeForest w5store w5roots).1 r).isModule = true
        ∧ (getNode (normalizeForest w5store w5roots).1 r).isDirect = none) :=
  ⟨by decide, by decide, by decide, by decide,
    (c5_multi_root_amended w5store w5roots (by decide) (by decide) (by decide)
      (by decide)).2.1⟩

/-- Witness for C7 (amended) at the same concrete two-root store. -/
theorem c7_idempotent_witness :
    (∀ i, i < w5store.nodes.length →
      jsGet (getNode w5store i).identifier.coordinates "extension" ≠ some "pom")
    ∧ (filterPoms w5store w5roots).length > 1
    ∧ normalizeForest (normalizeForest w5store w5roots).1 (normalizeForest w5store w5roots).2
        = normalizeForest w5store w5roots :=
  ⟨by decide, by decide,
    c7_idempotent_amended w5store w5roots (by decide) (by decide) (by decide)
      (by decide) (by decide)⟩
